import Mathlib

/-!
Verification development for the `turbo-pipeline.js` keyword
extraction-and-distribution engine.

The JavaScript source is shallowly embedded below: strings are modelled as
`List Char` (converted from Lean `String` at the boundaries), JS `Map`s as
insertion-ordered association lists, and the two floating-point products
`n * 0.45` / `n * 0.35` (used for tier sizes) as exact integer arithmetic on
the IEEE-754 significands of the double constants `0.45` and `0.35`, with
round-to-nearest-even modelled explicitly.  Randomized phrase selection is
modelled by an explicit oracle `rand : Nat → Nat` giving the sequence of
`Math.floor(Math.random() * phrases.length)` draws.
-/

namespace TurboPipeline

/-! ## Character helpers (JS semantics, ASCII fragment) -/

/-- JS `\s` character class, restricted to its ASCII members
(space, tab, newline, carriage return, vertical tab, form feed). -/
def isJsSpace (c : Char) : Bool :=
  c == ' ' || c == '\t' || c == '\n' || c == '\r' || c.toNat == 11 || c.toNat == 12

/-- ASCII case folding, as JS `toLowerCase` acts on ASCII letters. -/
def jsToLowerChar (c : Char) : Char :=
  if 65 ≤ c.toNat ∧ c.toNat ≤ 90 then Char.ofNat (c.toNat + 32) else c

def jsLower (s : List Char) : List Char := s.map jsToLowerChar

/-- Characters kept by `replace(/[^a-z0-9\s\-\/\.#\+]/g, ' ')`
(applied after lowercasing). -/
def isKeptChar (c : Char) : Bool :=
  (decide (97 ≤ c.toNat) && decide (c.toNat ≤ 122)) ||
  (decide (48 ≤ c.toNat) && decide (c.toNat ≤ 57)) ||
  isJsSpace c || c == '-' || c == '/' || c == '.' || c == '#' || c == '+'

def cleanChars (s : List Char) : List Char :=
  s.map fun c => if isKeptChar c then c else ' '

/-! ## Tokenizer: `split(/\s+/)` then the length/stop-word filter.
JS `split(/\s+/)` can produce empty-string artifacts at the ends; those are
removed by the very same `w.length >= 2` filter the code applies, so tokens
are modelled directly as the maximal runs of non-`\s` characters. -/

def tokensAux : List Char → List Char → List (List Char)
  | [], acc => if acc.isEmpty then [] else [acc.reverse]
  | c :: rest, acc =>
    if isJsSpace c then
      (if acc.isEmpty then tokensAux rest [] else acc.reverse :: tokensAux rest [])
    else tokensAux rest (c :: acc)

def tokenize (cs : List Char) : List (List Char) := tokensAux cs []

/-! ## The fixed word lists of `ultraFastExtraction` -/

def stopWords : List (List Char) :=
  (["a", "an", "the", "and", "or", "but", "in", "on", "at", "to", "for", "of",
    "with", "by", "from", "as", "is", "was", "are", "were", "been", "be",
    "have", "has", "had", "do", "does", "did", "will", "would", "could",
    "should", "may", "might", "must", "can", "need", "this", "that", "you",
    "your", "we", "our", "they", "their", "work", "working", "job",
    "position", "role", "team", "company", "opportunity", "looking",
    "seeking", "required", "requirements", "preferred", "ability", "able",
    "experience", "years", "year", "including", "new", "strong", "excellent",
    "highly", "etc", "also", "via", "across", "ensure", "join"] :
    List String).map (·.data)

def softSkillsToExclude : List (List Char) :=
  (["collaboration", "communication", "teamwork", "leadership", "initiative",
    "proactive", "ownership", "responsibility", "commitment", "passion",
    "dedication", "motivation", "self-starter", "detail-oriented",
    "problem-solving", "critical thinking", "time management",
    "adaptability", "flexibility", "creativity", "innovation",
    "interpersonal", "organizational", "multitasking", "prioritization",
    "reliability", "accountability", "integrity", "professionalism",
    "work ethic", "positive attitude", "enthusiasm", "driven", "dynamic",
    "results-oriented", "goal-oriented", "mission", "continuous learning",
    "debugging", "testing", "documentation", "system integration",
    "goodjob", "sidekiq", "canvas", "salesforce"] : List String).map (·.data)

def technicalPatterns : List (List Char) :=
  (["python", "java", "javascript", "typescript", "ruby", "rails", "react",
    "node", "nodejs", "aws", "azure", "gcp", "google cloud", "kubernetes",
    "docker", "terraform", "ansible", "postgresql", "postgres", "mysql",
    "mongodb", "redis", "elasticsearch", "bigquery", "spark", "airflow",
    "kafka", "dbt", "snowflake", "databricks", "mlops", "devops", "ci/cd",
    "github", "gitlab", "jenkins", "circleci", "agile", "scrum", "jira",
    "confluence", "pytorch", "tensorflow", "scikit-learn", "pandas",
    "numpy", "sql", "nosql", "graphql", "rest", "api", "microservices",
    "serverless", "lambda", "ecs", "eks", "s3", "rds", "machine learning",
    "data science", "data engineering", "deep learning", "nlp", "llm",
    "genai", "ai", "ml", "computer vision", "data pipelines", "etl",
    "data modeling", "tableau", "power bi", "looker", "heroku", "vercel",
    "netlify", "linux", "unix", "bash", "git", "svn", "html", "css",
    "sass", "webpack", "vite", "nextjs", "vue", "angular", "swift",
    "kotlin", "flutter", "react native", "ios", "android", "mobile",
    "frontend", "backend", "fullstack", "full-stack", "sre",
    "infrastructure", "networking", "security", "oauth", "jwt",
    "encryption", "compliance", "gdpr", "hipaa", "soc2", "pci", "prince2",
    "cbap", "pmp", "certified", "certification", ".net", "c#", "go",
    "scala"] : List String).map (·.data)

def multiWordPatterns : List (List Char) :=
  (["project management", "data science", "machine learning",
    "deep learning", "data engineering", "cloud platform",
    "google cloud platform", "agile/scrum", "a/b testing", "ci/cd",
    "real-time", "data pipelines", "ruby on rails", "node.js", "react.js",
    "vue.js", "next.js", "full stack", "full-stack",
    "natural language processing", "computer vision",
    "artificial intelligence", ".net core", "software development",
    "full-stack development"] : List String).map (·.data)

/-! ## Insertion-ordered maps (JS `Map` semantics over association lists).
`set` on an existing key updates the entry in place, keeping its position;
a new key is appended at the end. -/

def mapSet {K V : Type} [DecidableEq K] (m : List (K × V)) (k : K) (v : V) :
    List (K × V) :=
  if m.any (fun p => decide (p.1 = k)) then
    m.map (fun p => if p.1 = k then (k, v) else p)
  else m ++ [(k, v)]

def mapGet? {K V : Type} [DecidableEq K] (m : List (K × V)) (k : K) : Option V :=
  (m.find? (fun p => decide (p.1 = k))).map (·.2)

/-- `freq.get(w) || 0`. -/
def scoreGet (m : List (List Char × Nat)) (w : List Char) : Nat :=
  (mapGet? m w).getD 0

/-! ## The single-pass frequency count with tech boost -/

def qualifiesToken (w : List Char) : Bool :=
  technicalPatterns.contains w || decide (4 < w.length)

def boostOf (w : List Char) : Nat :=
  if technicalPatterns.contains w then 5 else 1

/-- One `words.forEach` step: `count = (freq.get(word) || 0) + 1;`
`freq.set(word, count * boost)`.  Note `count` is the previously *stored
score* plus one, not the occurrence count. -/
def freqStep (m : List (List Char × Nat)) (w : List Char) :
    List (List Char × Nat) :=
  if qualifiesToken w then mapSet m w ((scoreGet m w + 1) * boostOf w) else m

def buildFreq (ws : List (List Char)) : List (List Char × Nat) :=
  ws.foldl freqStep []

/-- Substring containment, JS `String.prototype.includes`. -/
def containsSub (hay pat : List Char) : Bool :=
  hay.tails.any fun t => pat.isPrefixOf t

def addPhrases (textLower : List Char) (m : List (List Char × Nat)) :
    List (List Char × Nat) :=
  multiWordPatterns.foldl
    (fun m' ph =>
      if containsSub textLower ph then mapSet m' ph (scoreGet m' ph + 10)
      else m') m

/-! ## Stable descending sort by score.
JS `sort((a, b) => b[1] - a[1])` is a stable sort; modelled by stable
insertion sort: each element is placed after all earlier elements of
greater-or-equal score. -/

def insertScored (p : List Char × Nat) :
    List (List Char × Nat) → List (List Char × Nat)
  | [] => [p]
  | q :: rest => if q.2 < p.2 then p :: q :: rest else q :: insertScored p rest

def sortScoredDesc (l : List (List Char × Nat)) : List (List Char × Nat) :=
  l.foldl (fun acc p => insertScored p acc) []

/-! ## Exact model of the two double products used for tier sizes.
`d45num / 2^54` and `d35num / 2^54` are exactly the IEEE-754 doubles
`0.45` and `0.35`.  `roundSig53` rounds an integer (interpreted over the
fixed denominator `2^54`) to 53 significant bits with ties to even, which
is exactly how the double product `n * 0.45` is formed for every `n`
exactly representable as a double (array lengths always are). -/

def TWO53 : Nat := 9007199254740992
def TWO54 : Nat := 18014398509481984
def d45num : Nat := 8106479329266893
def d35num : Nat := 6305039478318694

/-- Fuel-based binary logarithm: `log2Aux fuel n` halves `n` until it drops
below 2.  Structural in the fuel, so it reduces in the kernel; with
`fuel = n` it computes `Nat.log2 n` (proved below). -/
def log2Aux : Nat → Nat → Nat
  | 0, _ => 0
  | fuel + 1, n => if n < 2 then 0 else log2Aux fuel (n / 2) + 1

def natLog2 (n : Nat) : Nat := log2Aux n n

/-- Round `k` to the nearest multiple of `2^s`, ties to even. -/
def rnd53 (k s : Nat) : Nat :=
  if 2 ^ s < 2 * (k % 2 ^ s) then (k / 2 ^ s + 1) * 2 ^ s
  else if 2 * (k % 2 ^ s) < 2 ^ s then (k / 2 ^ s) * 2 ^ s
  else if k / 2 ^ s % 2 = 0 then (k / 2 ^ s) * 2 ^ s
  else (k / 2 ^ s + 1) * 2 ^ s

def roundSig53 (k : Nat) : Nat :=
  if k < TWO53 then k else rnd53 k (natLog2 k - 52)

/-- `Math.ceil(n * d)` where `d` is the double `dnum / 2^54`. -/
def jsCeilMulD (dnum n : Nat) : Nat :=
  (roundSig53 (n * dnum) + (TWO54 - 1)) / TWO54

/-- `Math.min(15, Math.ceil(sorted.length * 0.45))`. -/
def highCountOf (n : Nat) : Nat := min 15 (jsCeilMulD d45num n)

/-- `Math.min(10, Math.ceil(sorted.length * 0.35))`. -/
def medCountOf (n : Nat) : Nat := min 10 (jsCeilMulD d35num n)

/-! ## `ultraFastExtraction` -/

structure KeywordSet where
  all : List String
  highPriority : List String
  mediumPriority : List String
  lowPriority : List String
  workExperience : List String
  total : Nat
deriving Repr, DecidableEq

def emptyKeywordSet : KeywordSet := ⟨[], [], [], [], [], 0⟩

/-- The sorted, soft-skill-filtered, truncated keyword list (the value of
`sorted` in the source). -/
def sortedKeywordsOf (text : String) (maxKeywords : Nat) : List (List Char) :=
  let lower := jsLower text.data
  let ws := (tokenize (cleanChars lower)).filter fun w =>
    decide (2 ≤ w.length) && !(stopWords.contains w) &&
    !(softSkillsToExclude.contains w)
  let freq := addPhrases lower (buildFreq ws)
  (((sortScoredDesc (freq.filter fun p => !(softSkillsToExclude.contains p.1))).map
    (·.1)).take maxKeywords)

def ultraFastExtraction (text : String) (maxKeywords : Nat) : KeywordSet :=
  let sorted := sortedKeywordsOf text maxKeywords
  let n := sorted.length
  let hc := highCountOf n
  let mc := medCountOf n
  { all := sorted.map String.mk
    highPriority := (sorted.take hc).map String.mk
    mediumPriority := ((sorted.drop hc).take mc).map String.mk
    lowPriority := (sorted.drop (hc + mc)).map String.mk
    workExperience := (sorted.take 15).map String.mk
    total := sorted.length }

/-- `turboExtractKeywords`: the short-input guard precedes the cache lookup;
the cache outcome is supplied as an explicit `Option` since the store is
external state.  Timing fields are not modelled. -/
def turboExtractKeywords (jobDescription : String) (maxKeywords : Nat)
    (cached : Option KeywordSet) : KeywordSet :=
  if jobDescription.length < 50 then emptyKeywordSet
  else
    match cached with
    | some ks => ks
    | none => ultraFastExtraction jobDescription maxKeywords

/-! ## The keyword cache (`setCachedKeywords` / FIFO eviction).
Keys and values are kept abstract; the JS `Map` is the insertion-ordered
association list above.  Reads (`getCachedKeywords`) never reorder or
modify the map. -/

def MAX_CACHE_SIZE : Nat := 100

/-- `setCachedKeywords`: when the table is at capacity, delete the
first-inserted key (`keywordCache.keys().next().value`), then insert. -/
def setCachedEntry {K V : Type} [DecidableEq K] (m : List (K × V)) (k : K)
    (v : V) : List (K × V) :=
  let m' :=
    if MAX_CACHE_SIZE ≤ m.length then
      match m.head? with
      | some p => m.filter fun q => decide (q.1 ≠ p.1)
      | none => m
    else m
  mapSet m' k v

/-- `getCachedKeywords` without the TTL check (reads are state-pure). -/
def getCachedEntry {K V : Type} [DecidableEq K] (m : List (K × V)) (k : K) :
    Option V :=
  mapGet? m k

inductive CacheOp (K V : Type) where
  | put (k : K) (v : V)
  | read (k : K)
  | clearAll
deriving Repr

def cacheStep {K V : Type} [DecidableEq K] (m : List (K × V)) :
    CacheOp K V → List (K × V)
  | .put k v => setCachedEntry m k v
  | .read _ => m
  | .clearAll => []

def runCache {K V : Type} [DecidableEq K] (ops : List (CacheOp K V)) :
    List (K × V) :=
  ops.foldl cacheStep []

/-! ## Whole-word presence test.
`new RegExp('\\b' + escaped(kw) + '\\b', 'gi').test(cvLower)`: the escaping
makes `kw` literal; `\b` holds at a position iff exactly one of the two
adjacent characters is a word character (`[A-Za-z0-9_]`), with the ends of
the string counting as non-word. -/

def isWordChar (c : Char) : Bool :=
  (decide (97 ≤ c.toNat) && decide (c.toNat ≤ 122)) ||
  (decide (65 ≤ c.toNat) && decide (c.toNat ≤ 90)) ||
  (decide (48 ≤ c.toNat) && decide (c.toNat ≤ 57)) || c == '_'

def wordBoundaryAt (cs : List Char) (i : Nat) : Bool :=
  let before := if i = 0 then false else isWordChar (cs.getD (i - 1) ' ')
  let after := isWordChar (cs.getD i ' ')
  before != after

def matchKwAt (cs kw : List Char) (i : Nat) : Bool :=
  kw.isPrefixOf (cs.drop i) && wordBoundaryAt cs i &&
  wordBoundaryAt cs (i + kw.length)

/-- Whole-word containment of `kw` in `cs`.  (For the degenerate empty
keyword, JS `\b\b` would succeed whenever the text has any word character;
this model never matches it — the extractor only ever produces keywords of
length ≥ 2, and no theorem below depends on the empty-keyword edge.) -/
def wholeWordIn (cs kw : List Char) : Bool :=
  (List.range (cs.length + 1)).any (matchKwAt cs kw)

def cvLowerOf (cv : String) : List Char := jsLower cv.data

/-- The keywords that fail the whole-word coverage test, in original order
(`missingKeywords` in the source; the `i` regex flag is modelled by folding
the keyword's case as well). -/
def missingOf (cv : String) (kws : List String) : List String :=
  kws.filter fun kw => !(wholeWordIn (cvLowerOf cv) (jsLower kw.data))

/-- Count of keywords passing the coverage test (`stats.alreadyPresent`). -/
def presentCnt (cv : String) (kws : List String) : Nat :=
  (kws.filter fun kw => wholeWordIn (cvLowerOf cv) (jsLower kw.data)).length

/-! ## Section-boundary regexes.
`/\n(EXPERIENCE|WORK\s*EXPERIENCE|EMPLOYMENT|PROFESSIONAL\s*EXPERIENCE)[\s:]*\n/im`
and the next-section variant.  An alternative is a list of words separated
by `\s*` gaps; since every word starts with a letter, the greedy `\s*`
deterministically consumes the whole whitespace run.  For the trailing
`[\s:]*\n`, greedy matching with backtracking consumes gap characters up to
and including the *last* newline of the maximal `[\s:]` run. -/

def matchCIAux : List Char → List Char → Option (List Char)
  | [], cs => some cs
  | _ :: _, [] => none
  | p :: ps, c :: cs =>
    if jsToLowerChar c == jsToLowerChar p then matchCIAux ps cs else none

def matchAltWords : List (List Char) → List Char → Option (List Char)
  | [], cs => some cs
  | [w], cs => matchCIAux w cs
  | w :: rest, cs =>
    match matchCIAux w cs with
    | none => none
    | some cs' => matchAltWords rest (cs'.dropWhile isJsSpace)

def isGapChar (c : Char) : Bool := isJsSpace c || c == ':'

def lastNlPos (l : List Char) : Option Nat :=
  (List.range l.length).foldl
    (fun acc j => if l.getD j ' ' == '\n' then some j else acc) none

def tailGapLen (cs : List Char) : Option Nat :=
  (lastNlPos (cs.takeWhile isGapChar)).map (· + 1)

def expHeadAlts : List (List (List Char)) :=
  [["EXPERIENCE".data], ["WORK".data, "EXPERIENCE".data],
   ["EMPLOYMENT".data], ["PROFESSIONAL".data, "EXPERIENCE".data]]

def nextSectAlts : List (List (List Char)) :=
  [["SKILLS".data], ["EDUCATION".data], ["CERTIFICATIONS".data],
   ["PROJECTS".data], ["TECHNICAL".data, "PROFICIENCIES".data]]

/-- Try the full pattern anchored at the head of `cs` (which must be a
newline); returns the total matched length. -/
def tryHeadAt (alts : List (List (List Char))) (cs : List Char) : Option Nat :=
  match cs with
  | '\n' :: rest =>
    alts.foldl
      (fun acc alt =>
        match acc with
        | some _ => acc
        | none =>
          match matchAltWords alt rest with
          | none => none
          | some rest' =>
            match tailGapLen rest' with
            | none => none
            | some g => some (1 + (rest.length - rest'.length) + g)) none
  | _ => none

def findPatFrom (alts : List (List (List Char))) :
    List Char → Nat → Option (Nat × Nat)
  | [], _ => none
  | c :: rest, i =>
    match tryHeadAt alts (c :: rest) with
    | some len => some (i, len)
    | none => findPatFrom alts rest (i + 1)

/-- Leftmost match of the section-heading pattern: `(index, length)`. -/
def findPat (alts : List (List (List Char))) (cs : List Char) :
    Option (Nat × Nat) :=
  findPatFrom alts cs 0

/-- `(expStart, expEnd)` of the experience section, or `none` when no
experience heading matches. -/
def expSectionBounds (cs : List Char) : Option (Nat × Nat) :=
  match findPat expHeadAlts cs with
  | none => none
  | some (idx, len) =>
    let a := idx + len
    match findPat nextSectAlts (cs.drop a) with
    | some (j, _) => some (a, a + j)
    | none => some (a, cs.length)

/-! ## Line handling inside the experience section -/

def splitNl : List Char → List (List Char)
  | [] => [[]]
  | c :: rest =>
    if c == '\n' then [] :: splitNl rest
    else
      match splitNl rest with
      | [] => [[c]]
      | l :: ls => (c :: l) :: ls

def joinNl : List (List Char) → List Char
  | [] => []
  | [l] => l
  | l :: ls => l ++ '\n' :: joinNl ls

def dropEndSpaces (l : List Char) : List Char :=
  (l.reverse.dropWhile isJsSpace).reverse

def jsTrim (l : List Char) : List Char :=
  dropEndSpaces (l.dropWhile isJsSpace)

def bulletGlyphs : List Char := ['-', '•', '*', '▪', '▸']

/-- `/^[-•*▪▸]\s/.test(trimmed)`. -/
def isBulletLine (l : List Char) : Bool :=
  match jsTrim l with
  | g :: c :: _ => bulletGlyphs.contains g && isJsSpace c
  | _ => false

def bulletIdxs (lines : List (List Char)) : List Nat :=
  (List.range lines.length).filter fun i => isBulletLine (lines.getD i [])

/-! ## Keyword injection into bullets -/

def phrasesList : List (List Char) :=
  (["leveraging", "utilizing", "implementing", "applying",
    "with expertise in", "through", "incorporating", "employing", "using",
    "via"] : List String).map (·.data)

/-- The three injection templates (1, 2, or 3+ keywords).  JS interpolates
`kwsToAdd.slice(-1)` (a one-element array) to its single element. -/
def injectionClause (phrase : List Char) (kws : List (List Char)) :
    List Char :=
  match kws with
  | [k] => ',' :: ' ' :: (phrase ++ ' ' :: k)
  | [k1, k2] => ' ' :: (phrase ++ ' ' :: (k1 ++ " and ".data ++ k2))
  | ks =>
    ' ' :: (phrase ++ ' ' ::
      (List.intercalate ", ".data ks.dropLast ++ ", and ".data ++
        ks.getLastD []))

def injectLine (line phrase : List Char) (kws : List (List Char)) :
    List Char :=
  let inj := injectionClause phrase kws
  if line.getLast? == some '.' then line.dropLast ++ inj ++ ['.']
  else dropEndSpaces line ++ inj

/-! ## Overflow bullets -/

/-- `for (let i = 0; i < remaining.length; i += 3)` chunking: groups of 3
with a shorter final group. -/
def chunk3 : List (List Char) → List (List (List Char))
  | [] => []
  | [a] => [[a]]
  | [a, b] => [[a, b]]
  | a :: b :: c :: rest => [a, b, c] :: chunk3 rest

def sumLens (chunks : List (List (List Char))) : Nat :=
  chunks.foldl (fun a c => a + c.length) 0

/-- The fixed overflow-bullet sentence templates (the drawn phrase is unused
by all three templates in the source). -/
def mkOverflowBullet (chunk : List (List Char)) : List Char :=
  match chunk with
  | [k] =>
    "• Implemented ".data ++ k ++
      " solutions to enhance operational efficiency and delivery outcomes".data
  | [k1, k2] =>
    "• Applied ".data ++ k1 ++ " and ".data ++ k2 ++
      " methodologies to drive cross-functional improvements".data
  | ks =>
    "• Delivered ".data ++ List.intercalate ", ".data ks.dropLast ++
      ", and ".data ++ ks.getLastD [] ++
      " initiatives across technical teams".data

/-! ## The bullet walk -/

structure BulletLoopState where
  lines : List (List Char)
  keywordIndex : Nat
  added : Nat
  draw : Nat
deriving Repr

/-- The `for` loop over `bulletLines`: runs while bullets remain and
`keywordIndex < missing.length`; each visited bullet takes
`min(maxKeywordsPerBullet, keywordsPerBullet, remaining)` keywords from the
front of the missing queue (an empty take is `continue`, consuming no
random draw). -/
def processBullets (rand : Nat → Nat) (cap per : Nat)
    (missing : List (List Char)) :
    List Nat → BulletLoopState → BulletLoopState
  | [], st => st
  | lineIdx :: rest, st =>
    if st.keywordIndex < missing.length then
      let numToAdd := min cap (min per (missing.length - st.keywordIndex))
      let kws := (missing.drop st.keywordIndex).take numToAdd
      if kws.isEmpty then processBullets rand cap per missing rest st
      else
        let phrase := phrasesList.getD (rand st.draw % phrasesList.length) []
        let line := st.lines.getD lineIdx []
        processBullets rand cap per missing rest
          { lines := st.lines.set lineIdx (injectLine line phrase kws)
            keywordIndex := st.keywordIndex + numToAdd
            added := st.added + kws.length
            draw := st.draw + 1 }
    else st

structure DistStats where
  total : Nat
  alreadyPresent : Nat
  added : Nat
  missing : Nat
deriving Repr, DecidableEq

/-- Splice the rewritten section back between the original pre-section and
post-section text. -/
def reassemble (cs : List Char) (a b : Nat) (lines2 : List (List Char)) :
    String :=
  String.mk (cs.take a ++ joinNl lines2 ++ cs.drop b)

/-- The body of `distributeHighPriorityKeywords` past the empty-input
guard. -/
def distributeGo (cvText : String) (allKeywords : List String) (cap : Nat)
    (rand : Nat → Nat) : String × Option DistStats :=
  let total := allKeywords.length
  let present := presentCnt cvText allKeywords
  let missing := missingOf cvText allKeywords
  if missing.isEmpty then (cvText, some ⟨total, present, 0, 0⟩)
  else
    match expSectionBounds cvText.data with
    | none => (cvText, some ⟨total, present, 0, missing.length⟩)
    | some (a, b) =>
      let lines := splitNl ((cvText.data.drop a).take (b - a))
      let bl := bulletIdxs lines
      if bl.isEmpty then (cvText, some ⟨total, present, 0, missing.length⟩)
      else
        let per := (missing.length + bl.length - 1) / bl.length
        let st := processBullets rand cap per (missing.map String.data) bl
          ⟨lines, 0, 0, 0⟩
        if st.keywordIndex < missing.length then
          let chunks := chunk3 ((missing.map String.data).drop st.keywordIndex)
          let newBullets := chunks.map mkOverflowBullet
          let insertAfter := bl.getD (min 4 (bl.length - 1)) 0
          let lines2 := st.lines.take (insertAfter + 1) ++ newBullets ++
            st.lines.drop (insertAfter + 1)
          let added := st.added + sumLens chunks
          (reassemble cvText.data a b lines2,
            some ⟨total, present, added, missing.length - added⟩)
        else
          (reassemble cvText.data a b st.lines,
            some ⟨total, present, st.added, missing.length - st.added⟩)

/-- `distributeHighPriorityKeywords(cvText, allKeywords, options)`.
`cap` is `options.maxKeywordsPerBullet` (default 3); the unused
`maxBulletsPerRole` option is omitted.  On absent/empty input the source
returns `distributionStats: {}` — an object with none of the stats fields —
modelled as `none`. -/
def distributeHighPriorityKeywords (cvText : String)
    (allKeywords : List String) (cap : Nat) (rand : Nat → Nat) :
    String × Option DistStats :=
  if cvText = "" ∨ allKeywords = [] then (cvText, none)
  else distributeGo cvText allKeywords cap rand

/-! ## Spec-side helpers used to state the claims -/

/-- Running-score recurrence of the frequency pass: `s_0 = 0`,
`s_{k+1} = (s_k + 1) * boost`. -/
def compoundScore (boost : Nat) : Nat → Nat
  | 0 => 0
  | n + 1 => (compoundScore boost n + 1) * boost

/-- The same recurrence started from an arbitrary stored score (used to
reason about the left fold). -/
def compoundFrom (boost x : Nat) : Nat → Nat
  | 0 => x
  | n + 1 => compoundFrom boost ((x + 1) * boost) n

/-- `ceil(num * n / den)` in exact rational arithmetic. -/
def ratCeilMul (num den n : Nat) : Nat := (num * n + (den - 1)) / den

/-! # Lemmas and theorems -/

/-! ## Association-list lemmas -/

theorem mapGet?_cons {K V : Type} [DecidableEq K] (q : K × V)
    (t : List (K × V)) (k : K) :
    mapGet? (q :: t) k = if q.1 = k then some q.2 else mapGet? t k := by
  by_cases hq : q.1 = k <;> simp [mapGet?, List.find?, hq]

theorem mapGet?_mapSet_self {K V : Type} [DecidableEq K] (m : List (K × V))
    (k : K) (v : V) : mapGet? (mapSet m k v) k = some v := by
  unfold mapSet
  by_cases h : m.any (fun p => decide (p.1 = k)) = true
  · rw [if_pos h]
    induction m with
    | nil => simp at h
    | cons q t ih =>
      by_cases hq : q.1 = k
      · simp [mapGet?_cons, hq]
      · have ht : t.any (fun p => decide (p.1 = k)) = true := by
          simp only [List.any_cons, Bool.or_eq_true, decide_eq_true_eq] at h
          tauto
        simpa [mapGet?_cons, hq] using ih ht
  · rw [if_neg h]
    have hnone : m.find? (fun p => decide (p.1 = k)) = none := by
      rw [List.find?_eq_none]
      intro x hx
      have := List.any_eq_false.mp (Bool.eq_false_iff.mpr h) x hx
      simpa using this
    simp [mapGet?, List.find?_append, hnone, List.find?]

theorem mapGet?_mapSet_ne {K V : Type} [DecidableEq K] (m : List (K × V))
    {k' k : K} (v : V) (hne : k' ≠ k) :
    mapGet? (mapSet m k' v) k = mapGet? m k := by
  unfold mapSet
  by_cases h : m.any (fun p => decide (p.1 = k')) = true
  · rw [if_pos h]
    clear h
    induction m with
    | nil => rfl
    | cons q t ih =>
      by_cases hq : q.1 = k'
      · have hqk : ¬ q.1 = k := by rw [hq]; exact hne
        rw [List.map_cons, mapGet?_cons, mapGet?_cons, if_pos hq]
        simp only [if_neg hqk]
        simp [hne, ih]
      · simp [mapGet?_cons, hq, ih]
  · rw [if_neg h]
    rcases hm : mapGet? m k with _ | v'
    · have hnone : m.find? (fun p => decide (p.1 = k)) = none := by
        unfold mapGet? at hm
        exact Option.map_eq_none.mp hm
      simp [mapGet?, List.find?_append, hnone, List.find?, hne]
    · have : ∃ p, m.find? (fun p => decide (p.1 = k)) = some p ∧ p.2 = v' := by
        unfold mapGet? at hm
        rcases Option.map_eq_some.mp hm with ⟨p, hp, hpv⟩
        exact ⟨p, hp, hpv⟩
      rcases this with ⟨p, hp, hpv⟩
      simp [mapGet?, List.find?_append, hp, hpv]

theorem filter_partition_length {α : Type} (p : α → Bool) (l : List α) :
    (l.filter p).length + (l.filter fun a => !(p a)).length = l.length := by
  induction l with
  | nil => rfl
  | cons a t ih =>
    by_cases ha : p a = true <;> simp [List.filter, ha] <;> omega

/-! ## Frequency-pass lemmas (claim C3) -/

theorem scoreGet_freqStep_self (m : List (List Char × Nat)) (w : List Char)
    (hq : qualifiesToken w = true) :
    scoreGet (freqStep m w) w = (scoreGet m w + 1) * boostOf w := by
  simp [freqStep, hq, scoreGet, mapGet?_mapSet_self]

theorem scoreGet_freqStep_ne (m : List (List Char × Nat)) (u w : List Char)
    (hne : u ≠ w) : scoreGet (freqStep m u) w = scoreGet m w := by
  unfold freqStep
  split
  · simp [scoreGet, mapGet?_mapSet_ne m _ hne]
  · rfl

theorem compoundFrom_succ_outer (b : Nat) :
    ∀ (n x : Nat), compoundFrom b x (n + 1) = (compoundFrom b x n + 1) * b := by
  intro n
  induction n with
  | zero => intro x; rfl
  | succ n ih =>
    intro x
    have h1 : compoundFrom b x (n + 2) = compoundFrom b ((x + 1) * b) (n + 1) := rfl
    have h2 : compoundFrom b x (n + 1) = compoundFrom b ((x + 1) * b) n := rfl
    rw [h1, ih, h2]

theorem compoundFrom_zero_eq (b : Nat) : ∀ n, compoundFrom b 0 n = compoundScore b n := by
  intro n
  induction n with
  | zero => rfl
  | succ n ih => rw [compoundFrom_succ_outer, ih]; rfl

theorem foldl_freqStep_score (w : List Char) (hq : qualifiesToken w = true) :
    ∀ (ws : List (List Char)) (m : List (List Char × Nat)),
      scoreGet (ws.foldl freqStep m) w =
        compoundFrom (boostOf w) (scoreGet m w) (ws.count w) := by
  intro ws
  induction ws with
  | nil => intro m; simp [compoundFrom]
  | cons u rest ih =>
    intro m
    rw [List.foldl_cons]
    by_cases hu : u = w
    · subst hu
      rw [ih, scoreGet_freqStep_self m u hq]
      have hc : List.count u (u :: rest) = List.count u rest + 1 := by
        simp [List.count_cons]
      rw [hc]
      rfl
    · rw [ih, scoreGet_freqStep_ne m u w hu]
      have hc : List.count w (u :: rest) = List.count w rest := by
        simp [List.count_cons, hu]
      rw [hc]

theorem compoundScore_five_gt (n : Nat) (h : 2 ≤ n) :
    n * 5 < compoundScore 5 n := by
  induction n, h using Nat.le_induction with
  | base => norm_num [compoundScore]
  | succ n hn ih =>
    have : compoundScore 5 (n + 1) = (compoundScore 5 n + 1) * 5 := rfl
    omega

/-- C3 counterexample: after two occurrences of the technical term
"python", the stored score is 30, while the running occurrence count times
the boost factor is 2 * 5 = 10 — the stored score is not the occurrence
count multiplied by the boost. -/
theorem claim3_compound_counterexample :
    scoreGet (buildFreq [String.data "python", String.data "python"])
      (String.data "python") = 30 ∧
    List.count (String.data "python")
        [String.data "python", String.data "python"] *
      boostOf (String.data "python") = 10 ∧
    (30 : Nat) ≠ 10 := by
  refine ⟨by decide, by decide, by decide⟩

/-- C3 (amended): each occurrence of a qualifying token updates the stored
score to `(previous stored score + 1) * boost` — the `count` variable is
the previously stored score plus one, not the occurrence count — so after
`n` occurrences the stored score is `compoundScore boost n`; for technical
terms (boost 5) this differs from `n * 5` whenever `n ≥ 2`, while for
non-technical qualifying tokens (boost 1) it equals the occurrence count. -/
theorem claim3_compound_score (ws : List (List Char)) (w : List Char)
    (hq : qualifiesToken w = true) :
    scoreGet (buildFreq ws) w = compoundScore (boostOf w) (ws.count w) ∧
    (∀ n, 2 ≤ n → compoundScore 5 n ≠ n * 5) ∧
    (∀ n, compoundScore 1 n = n) := by
  refine ⟨?_, ?_, ?_⟩
  · rw [buildFreq, foldl_freqStep_score w hq]
    have h0 : scoreGet ([] : List (List Char × Nat)) w = 0 := rfl
    rw [h0, compoundFrom_zero_eq]
  · intro n hn
    have := compoundScore_five_gt n hn
    omega
  · intro n
    induction n with
    | zero => rfl
    | succ n ih => show (compoundScore 1 n + 1) * 1 = n + 1; omega

theorem claim3_compound_score_witness :
    scoreGet (buildFreq [String.data "python", String.data "python"])
        (String.data "python") =
      compoundScore (boostOf (String.data "python"))
        (List.count (String.data "python")
          [String.data "python", String.data "python"]) :=
  (claim3_compound_score [String.data "python", String.data "python"]
    (String.data "python") (by decide)).1

/-! ## Claim C2: tier concatenation and truncation bound -/

/-- C2: for every extracted `KeywordSet`, the three priority tiers
concatenate (in order) to `all`, and `all` has at most `maxKeywords`
entries. -/
theorem claim2_tier_concat_bounded (text : String) (maxKeywords : Nat) :
    (ultraFastExtraction text maxKeywords).highPriority ++
        (ultraFastExtraction text maxKeywords).mediumPriority ++
        (ultraFastExtraction text maxKeywords).lowPriority =
      (ultraFastExtraction text maxKeywords).all ∧
    (ultraFastExtraction text maxKeywords).all.length ≤ maxKeywords := by
  unfold ultraFastExtraction
  dsimp only
  constructor
  · rw [List.map_take, List.map_take, List.map_drop, List.map_drop]
    rw [← List.drop_drop, List.append_assoc, List.take_append_drop,
      List.take_append_drop]
  · rw [List.length_map]
    unfold sortedKeywordsOf
    dsimp only
    rw [List.length_take]
    exact min_le_left _ _

/-! ## Claim C8: short-input guard of `turboExtractKeywords` -/

/-- C8: when the job text is absent or shorter than 50 characters,
extraction returns the empty `KeywordSet` (every field empty, total 0)
regardless of the cache, and raises no error (the function is total). -/
theorem claim8_short_input (text : String) (maxKeywords : Nat)
    (cached : Option KeywordSet) (h : text.length < 50) :
    turboExtractKeywords text maxKeywords cached = emptyKeywordSet ∧
    (turboExtractKeywords text maxKeywords cached).all = [] ∧
    (turboExtractKeywords text maxKeywords cached).highPriority = [] ∧
    (turboExtractKeywords text maxKeywords cached).mediumPriority = [] ∧
    (turboExtractKeywords text maxKeywords cached).lowPriority = [] ∧
    (turboExtractKeywords text maxKeywords cached).workExperience = [] ∧
    (turboExtractKeywords text maxKeywords cached).total = 0 := by
  have : turboExtractKeywords text maxKeywords cached = emptyKeywordSet := by
    simp [turboExtractKeywords, h]
  refine ⟨this, ?_, ?_, ?_, ?_, ?_, ?_⟩ <;> rw [this] <;> rfl

theorem claim8_short_input_witness :
    turboExtractKeywords "short" 35 none = emptyKeywordSet :=
  (claim8_short_input "short" 35 none (by decide)).1

/-! ## Floating-point tier-size arithmetic (claim C7) -/

theorem rnd53_ge (k s : Nat) : k / 2 ^ s * 2 ^ s ≤ rnd53 k s := by
  unfold rnd53
  split
  · exact Nat.mul_le_mul_right _ (Nat.le_succ _)
  · split
    · exact le_refl _
    · split
      · exact le_refl _
      · exact Nat.mul_le_mul_right _ (Nat.le_succ _)

theorem log2Aux_eq (fuel : Nat) :
    ∀ n, n ≤ fuel → log2Aux fuel n = Nat.log2 n := by
  induction fuel with
  | zero =>
    intro n hn
    have : n = 0 := Nat.le_zero.mp hn
    subst this
    rw [Nat.log2]
    simp [log2Aux]
  | succ fuel ih =>
    intro n hn
    by_cases h2 : n < 2
    · have hnot : ¬ 2 ≤ n := by omega
      rw [Nat.log2]
      simp [log2Aux, h2, hnot]
    · have hge : 2 ≤ n := Nat.le_of_not_lt h2
      have hhalf : n / 2 ≤ fuel := by omega
      rw [Nat.log2]
      simp only [log2Aux, if_neg h2, ih (n / 2) hhalf]
      rw [if_pos hge]

theorem natLog2_eq (n : Nat) : natLog2 n = Nat.log2 n :=
  log2Aux_eq n n (le_refl n)

theorem roundSig53_ge (k : Nat) :
    k - k / 4503599627370496 ≤ roundSig53 k := by
  unfold roundSig53
  split
  · exact Nat.sub_le _ _
  · rename_i h
    rw [natLog2_eq]
    have hk53 : TWO53 ≤ k := Nat.le_of_not_lt h
    have hk0 : k ≠ 0 := by
      intro h0
      rw [h0] at hk53
      simp [TWO53] at hk53
    have hlog : 53 ≤ k.log2 := by
      rw [Nat.le_log2 hk0]
      calc (2 : Nat) ^ 53 = TWO53 := by norm_num [TWO53]
        _ ≤ k := hk53
    set s := k.log2 - 52 with hs
    have hpow : 2 ^ s * 4503599627370496 ≤ k := by
      have h52 : (4503599627370496 : Nat) = 2 ^ 52 := by norm_num
      rw [h52, ← pow_add]
      have hadd : s + 52 = k.log2 := by omega
      rw [hadd]
      exact Nat.log2_self_le hk0
    have hdiv : 2 ^ s ≤ k / 4503599627370496 :=
      (Nat.le_div_iff_mul_le (by norm_num)).mpr hpow
    have hmod : k % 2 ^ s < 2 ^ s := Nat.mod_lt _ (Nat.pos_pow_of_pos _ (by norm_num))
    have hsplit : k / 2 ^ s * 2 ^ s + k % 2 ^ s = k := Nat.div_add_mod' k (2 ^ s)
    have hqt : k / 2 ^ s * 2 ^ s = k - k % 2 ^ s := by omega
    calc k - k / 4503599627370496
        ≤ k - 2 ^ s := Nat.sub_le_sub_left hdiv k
      _ ≤ k - k % 2 ^ s := Nat.sub_le_sub_left (le_of_lt hmod) k
      _ = k / 2 ^ s * 2 ^ s := hqt.symm
      _ ≤ rnd53 k s := rnd53_ge k s

theorem jsCeil45_high (n : Nat) (h : 32 ≤ n) :
    15 ≤ jsCeilMulD d45num n := by
  unfold jsCeilMulD
  rw [Nat.le_div_iff_mul_le (by norm_num [TWO54])]
  have hk : 32 * d45num ≤ n * d45num := Nat.mul_le_mul_right _ h
  have hr := roundSig53_ge (n * d45num)
  simp only [TWO54, d45num] at hk hr ⊢
  omega

theorem jsCeil35_med (n : Nat) (h : 26 ≤ n) :
    10 ≤ jsCeilMulD d35num n := by
  unfold jsCeilMulD
  rw [Nat.le_div_iff_mul_le (by norm_num [TWO54])]
  have hk : 26 * d35num ≤ n * d35num := Nat.mul_le_mul_right _ h
  have hr := roundSig53_ge (n * d35num)
  simp only [TWO54, d35num] at hk hr ⊢
  omega

set_option maxRecDepth 4000 in
theorem highCountOf_eq_rat (n : Nat) :
    highCountOf n = min 15 (ratCeilMul 9 20 n) := by
  by_cases h : n < 32
  · have hsmall : ∀ m, m < 32 → jsCeilMulD d45num m = ratCeilMul 9 20 m := by decide
    unfold highCountOf
    rw [hsmall n h]
  · have h32 : 32 ≤ n := Nat.le_of_not_lt h
    have h1 : 15 ≤ jsCeilMulD d45num n := jsCeil45_high n h32
    have h2 : 15 ≤ ratCeilMul 9 20 n := by
      unfold ratCeilMul
      rw [Nat.le_div_iff_mul_le (by norm_num)]
      omega
    unfold highCountOf
    omega

set_option maxRecDepth 4000 in
theorem medCountOf_eq_rat (n : Nat) :
    medCountOf n = min 10 (ratCeilMul 7 20 n) := by
  by_cases h : n < 26
  · have hsmall : ∀ m, m < 26 → jsCeilMulD d35num m = ratCeilMul 7 20 m := by decide
    unfold medCountOf
    rw [hsmall n h]
  · have h26 : 26 ≤ n := Nat.le_of_not_lt h
    have h1 : 10 ≤ jsCeilMulD d35num n := jsCeil35_med n h26
    have h2 : 10 ≤ ratCeilMul 7 20 n := by
      unfold ratCeilMul
      rw [Nat.le_div_iff_mul_le (by norm_num)]
      omega
    unfold medCountOf
    omega

theorem ratCeilMul_nine_le_self (n : Nat) : ratCeilMul 9 20 n ≤ n := by
  unfold ratCeilMul
  have h1 : 9 * n + 19 ≤ 20 * n + 19 := by omega
  calc (9 * n + 19) / 20 ≤ (20 * n + 19) / 20 := Nat.div_le_div_right h1
    _ = n := by omega

/-- C7 counterexample: a job text whose extraction yields exactly one
keyword has `medCount = min(10, ceil(0.35 * 1)) = 1`, but the medium tier
is empty — the tier size is not `medCount`. -/
theorem claim7_tier_sizes_counterexample :
    (ultraFastExtraction
        "python the the the the the the the the the the the the the the"
        35).all.length = 1 ∧
    min 10 (ratCeilMul 7 20
        (ultraFastExtraction
          "python the the the the the the the the the the the the the the"
          35).all.length) = 1 ∧
    (ultraFastExtraction
        "python the the the the the the the the the the the the the the"
        35).mediumPriority.length = 0 := by
  refine ⟨by decide, by decide, by decide⟩

/-- C7 (amended): for every extraction with truncated list length `N`, the
high tier has exactly `highCount = min(15, ceil(0.45 * N))` entries (the
double-precision computation agrees with exact rational arithmetic), and
the medium tier has `min(medCount, N - highCount)` entries where
`medCount = min(10, ceil(0.35 * N))` — equal to `medCount` except when
fewer than `highCount + medCount` keywords exist (which happens exactly
for `N ∈ {1, 3}`); `highPriority` is the first `highCount` entries of
`all`, `mediumPriority` the next (up to) `medCount`, and `lowPriority` the
rest. -/
theorem claim7_tier_sizes (text : String) (maxKeywords : Nat) :
    (ultraFastExtraction text maxKeywords).highPriority.length =
      min 15 (ratCeilMul 9 20 (ultraFastExtraction text maxKeywords).all.length) ∧
    (ultraFastExtraction text maxKeywords).mediumPriority.length =
      min (min 10 (ratCeilMul 7 20 (ultraFastExtraction text maxKeywords).all.length))
        ((ultraFastExtraction text maxKeywords).all.length -
          min 15 (ratCeilMul 9 20 (ultraFastExtraction text maxKeywords).all.length)) ∧
    (ultraFastExtraction text maxKeywords).highPriority =
      (ultraFastExtraction text maxKeywords).all.take
        (min 15 (ratCeilMul 9 20 (ultraFastExtraction text maxKeywords).all.length)) ∧
    (ultraFastExtraction text maxKeywords).mediumPriority =
      ((ultraFastExtraction text maxKeywords).all.drop
          (min 15 (ratCeilMul 9 20 (ultraFastExtraction text maxKeywords).all.length))).take
        (min 10 (ratCeilMul 7 20 (ultraFastExtraction text maxKeywords).all.length)) ∧
    (ultraFastExtraction text maxKeywords).lowPriority =
      (ultraFastExtraction text maxKeywords).all.drop
        (min 15 (ratCeilMul 9 20 (ultraFastExtraction text maxKeywords).all.length) +
          min 10 (ratCeilMul 7 20 (ultraFastExtraction text maxKeywords).all.length)) := by
  unfold ultraFastExtraction
  dsimp only
  simp only [List.length_map]
  rw [highCountOf_eq_rat, medCountOf_eq_rat]
  have hhc : min 15 (ratCeilMul 9 20 (sortedKeywordsOf text maxKeywords).length) ≤
      (sortedKeywordsOf text maxKeywords).length :=
    le_trans (min_le_right _ _) (ratCeilMul_nine_le_self _)
  refine ⟨?_, ?_, ?_, ?_, ?_⟩
  · rw [List.length_take]
    omega
  · rw [List.length_take, List.length_drop]
  · rw [List.map_take]
  · rw [List.map_take, List.map_drop]
  · rw [List.map_drop]

/-! ## Cache lemmas and claim C6 -/

theorem mapSet_length_le {K V : Type} [DecidableEq K] (m : List (K × V))
    (k : K) (v : V) : (mapSet m k v).length ≤ m.length + 1 := by
  unfold mapSet
  split
  · simp
  · simp

theorem setCachedEntry_length_le {K V : Type} [DecidableEq K]
    (m : List (K × V)) (k : K) (v : V) (h : m.length ≤ MAX_CACHE_SIZE) :
    (setCachedEntry m k v).length ≤ MAX_CACHE_SIZE := by
  unfold setCachedEntry
  split
  · rename_i hfull
    cases m with
    | nil => simp [MAX_CACHE_SIZE] at hfull
    | cons p t =>
      simp only [List.head?_cons]
      have h1 : ((p :: t).filter fun q => decide (q.1 ≠ p.1)) =
          t.filter fun q => decide (q.1 ≠ p.1) := by
        simp [List.filter]
      rw [h1]
      have h2 := mapSet_length_le ((t.filter fun q => decide (q.1 ≠ p.1))) k v
      have h3 := List.length_filter_le (fun q => decide (q.1 ≠ p.1)) t
      have h4 : (p :: t).length = t.length + 1 := by simp
      simp only [MAX_CACHE_SIZE] at h ⊢
      omega
  · rename_i hroom
    have h2 := mapSet_length_le m k v
    simp only [MAX_CACHE_SIZE, Nat.not_le] at hroom ⊢
    omega

theorem foldl_cacheStep_length_le {K V : Type} [DecidableEq K] :
    ∀ (ops : List (CacheOp K V)) (m : List (K × V)),
      m.length ≤ MAX_CACHE_SIZE →
      (ops.foldl cacheStep m).length ≤ MAX_CACHE_SIZE := by
  intro ops
  induction ops with
  | nil => intro m h; exact h
  | cons op rest ih =>
    intro m h
    rw [List.foldl_cons]
    cases op with
    | put k v => exact ih _ (setCachedEntry_length_le m k v h)
    | read k => exact ih _ h
    | clearAll => exact ih _ (by simp [cacheStep, MAX_CACHE_SIZE])

/-- C6: the keyword cache never holds more than 100 entries (over any
sequence of put / read / clear operations from the empty cache); a put
issued at capacity evicts exactly the single first-inserted entry before
inserting the new one (strict insertion order), so the 101st distinct
insertion evicts the first-inserted surviving entry; and reads never
modify the cache (so a recently-read entry is evicted all the same). -/
theorem claim6_cache_fifo :
    (∀ (K V : Type) [DecidableEq K] (ops : List (CacheOp K V)),
        (runCache ops).length ≤ MAX_CACHE_SIZE) ∧
    (∀ (K V : Type) [DecidableEq K] (m : List (K × V)) (k : K) (v : V),
        m.length = MAX_CACHE_SIZE → (m.map Prod.fst).Nodup →
        (∀ p ∈ m, p.1 ≠ k) →
        setCachedEntry m k v = m.tail ++ [(k, v)]) ∧
    (∀ (K V : Type) [DecidableEq K] (m : List (K × V)) (k : K),
        cacheStep m (CacheOp.read k) = m) := by
  refine ⟨?_, ?_, ?_⟩
  · intro K V _ ops
    exact foldl_cacheStep_length_le ops [] (by simp [MAX_CACHE_SIZE])
  · intro K V _ m k v hlen hnodup hfresh
    unfold setCachedEntry
    rw [if_pos (le_of_eq hlen.symm)]
    cases m with
    | nil => simp [MAX_CACHE_SIZE] at hlen
    | cons p t =>
      simp only [List.head?_cons]
      have hpt : p.1 ∉ t.map Prod.fst := by
        rw [List.map_cons, List.nodup_cons] at hnodup
        exact hnodup.1
      have htail : (t.filter fun q => decide (q.1 ≠ p.1)) = t := by
        rw [List.filter_eq_self]
        intro a ha
        simp only [decide_eq_true_eq]
        intro heq
        exact hpt (List.mem_map.mpr ⟨a, ha, heq⟩)
      have hfilter : ((p :: t).filter fun q => decide (q.1 ≠ p.1)) = t := by
        rw [List.filter_cons, if_neg (by simp), htail]
      rw [hfilter]
      have hany : (t.any fun p' => decide (p'.1 = k)) = false := by
        rw [List.any_eq_false]
        intro x hx
        simpa using hfresh x (List.mem_cons_of_mem p hx)
      unfold mapSet
      rw [if_neg (by simp [hany])]
      rfl
  · intro K V _ m k
    rfl

theorem claim6_cache_fifo_witness :
    (((List.range 100).map fun i => (i, 0)) : List (Nat × Nat)).length =
      MAX_CACHE_SIZE ∧
    setCachedEntry (((List.range 100).map fun i => (i, 0)) : List (Nat × Nat))
        100 0 =
      (((List.range 100).map fun i => (i, 0)) : List (Nat × Nat)).tail ++
        [(100, 0)] :=
  ⟨by decide,
    claim6_cache_fifo.2.1 Nat Nat ((List.range 100).map fun i => (i, 0)) 100 0
      (by decide) (by decide) (by decide)⟩

/-! ## Bullet-walk lemmas (claims C1, C4, C5, C9) -/

theorem processBullets_invariant (rand : Nat → Nat) (cap per : Nat)
    (missing : List (List Char)) :
    ∀ (bl : List Nat) (st : BulletLoopState),
      st.keywordIndex ≤ missing.length →
      (processBullets rand cap per missing bl st).keywordIndex ≤ missing.length ∧
      (processBullets rand cap per missing bl st).added + st.keywordIndex =
        st.added + (processBullets rand cap per missing bl st).keywordIndex ∧
      (processBullets rand cap per missing bl st).lines.length =
        st.lines.length := by
  intro bl
  induction bl with
  | nil =>
    intro st h
    simpa [processBullets] using h
  | cons x rest ih =>
    intro st h
    simp only [processBullets]
    by_cases hlt : st.keywordIndex < missing.length
    · simp only [if_pos hlt]
      by_cases hkw : ((missing.drop st.keywordIndex).take
          (min cap (min per (missing.length - st.keywordIndex)))).isEmpty = true
      · simp only [if_pos hkw]
        exact ih st h
      · simp only [if_neg hkw]
        have hle : min cap (min per (missing.length - st.keywordIndex)) ≤
            missing.length - st.keywordIndex :=
          le_trans (min_le_right _ _) (min_le_right _ _)
        have hklen : ((missing.drop st.keywordIndex).take
            (min cap (min per (missing.length - st.keywordIndex)))).length =
            min cap (min per (missing.length - st.keywordIndex)) := by
          rw [List.length_take, List.length_drop]
          omega
        obtain ⟨ha, hb, hc⟩ := ih
          { lines := st.lines.set x (injectLine (st.lines.getD x [])
              (phrasesList.getD (rand st.draw % phrasesList.length) [])
              ((missing.drop st.keywordIndex).take
                (min cap (min per (missing.length - st.keywordIndex)))))
            keywordIndex := st.keywordIndex +
              min cap (min per (missing.length - st.keywordIndex))
            added := st.added + ((missing.drop st.keywordIndex).take
              (min cap (min per (missing.length - st.keywordIndex)))).length
            draw := st.draw + 1 } (by dsimp only; omega)
        dsimp only at ha hb hc
        refine ⟨ha, ?_, ?_⟩
        · omega
        · rw [hc, List.length_set]
    · rw [if_neg hlt]
      exact ⟨h, rfl, rfl⟩

theorem processBullets_ki (rand : Nat → Nat) (cap per : Nat)
    (missing : List (List Char)) :
    ∀ (bl : List Nat) (st : BulletLoopState),
      st.keywordIndex ≤ missing.length →
      (processBullets rand cap per missing bl st).keywordIndex =
        min missing.length (st.keywordIndex + bl.length * min cap per) := by
  intro bl
  induction bl with
  | nil =>
    intro st h
    simp only [processBullets, List.length_nil]
    omega
  | cons x rest ih =>
    intro st h
    simp only [processBullets]
    have hmul : (x :: rest).length * min cap per =
        rest.length * min cap per + min cap per := by
      simp [List.length_cons]
      ring
    by_cases hlt : st.keywordIndex < missing.length
    · simp only [if_pos hlt]
      have hassoc : min cap (min per (missing.length - st.keywordIndex)) =
          min (min cap per) (missing.length - st.keywordIndex) :=
        (min_assoc cap per _).symm
      by_cases hkw : ((missing.drop st.keywordIndex).take
          (min cap (min per (missing.length - st.keywordIndex)))).isEmpty = true
      · simp only [if_pos hkw]
        have hz : ((missing.drop st.keywordIndex).take
            (min cap (min per (missing.length - st.keywordIndex)))).length = 0 := by
          rw [List.isEmpty_iff.mp hkw]
          rfl
        rw [List.length_take, List.length_drop] at hz
        rw [ih st h]
        omega
      · simp only [if_neg hkw]
        have hle : min cap (min per (missing.length - st.keywordIndex)) ≤
            missing.length - st.keywordIndex :=
          le_trans (min_le_right _ _) (min_le_right _ _)
        have hrec := ih
          { lines := st.lines.set x (injectLine (st.lines.getD x [])
              (phrasesList.getD (rand st.draw % phrasesList.length) [])
              ((missing.drop st.keywordIndex).take
                (min cap (min per (missing.length - st.keywordIndex)))))
            keywordIndex := st.keywordIndex +
              min cap (min per (missing.length - st.keywordIndex))
            added := st.added + ((missing.drop st.keywordIndex).take
              (min cap (min per (missing.length - st.keywordIndex)))).length
            draw := st.draw + 1 } (by dsimp only; omega)
        dsimp only at hrec
        rw [hrec]
        omega
    · rw [if_neg hlt]
      omega

theorem processBullets_indep (cap per : Nat) (missing : List (List Char)) :
    ∀ (bl : List Nat) (rand rand' : Nat → Nat) (st st' : BulletLoopState),
      st.keywordIndex = st'.keywordIndex → st.added = st'.added →
      st.lines.length = st'.lines.length →
      (processBullets rand cap per missing bl st).keywordIndex =
        (processBullets rand' cap per missing bl st').keywordIndex ∧
      (processBullets rand cap per missing bl st).added =
        (processBullets rand' cap per missing bl st').added ∧
      (processBullets rand cap per missing bl st).lines.length =
        (processBullets rand' cap per missing bl st').lines.length := by
  intro bl
  induction bl with
  | nil =>
    intro r r' st st' h1 h2 h3
    simp only [processBullets]
    exact ⟨h1, h2, h3⟩
  | cons x rest ih =>
    intro r r' st st' h1 h2 h3
    simp only [processBullets]
    rw [h1]
    by_cases hlt : st'.keywordIndex < missing.length
    · simp only [if_pos hlt]
      by_cases hkw : ((missing.drop st'.keywordIndex).take
          (min cap (min per (missing.length - st'.keywordIndex)))).isEmpty = true
      · simp only [if_pos hkw]
        exact ih r r' st st' h1 h2 h3
      · simp only [if_neg hkw]
        refine ih r r' _ _ ?_ ?_ ?_ <;>
          simp [List.length_set, h2, h3]
    · simp only [if_neg hlt]
      exact ⟨h1, h2, h3⟩

theorem sumLens_cons (c : List (List Char)) (t : List (List (List Char))) :
    sumLens (c :: t) = c.length + sumLens t := by
  have key : ∀ (u : List (List (List Char))) (a : Nat),
      u.foldl (fun x d => x + d.length) a =
        a + u.foldl (fun x d => x + d.length) 0 := by
    intro u
    induction u with
    | nil => intro a; simp
    | cons d u ih =>
      intro a
      simp only [List.foldl_cons]
      rw [ih (a + d.length), ih (0 + d.length)]
      omega
  simp only [sumLens, List.foldl_cons]
  rw [key t (0 + c.length)]
  omega

theorem sumLens_chunk3 (l : List (List Char)) :
    sumLens (chunk3 l) = l.length := by
  induction l using chunk3.induct with
  | case1 => rfl
  | case2 a => rfl
  | case3 a b => rfl
  | case4 a b c rest ih =>
    rw [chunk3, sumLens_cons, ih]
    simp
    omega

theorem chunk3_mem_length (l : List (List Char)) (c : List (List Char))
    (hc : c ∈ chunk3 l) : 1 ≤ c.length ∧ c.length ≤ 3 := by
  induction l using chunk3.induct with
  | case1 => rw [chunk3] at hc; simp at hc
  | case2 a =>
    rw [chunk3] at hc
    rcases List.mem_singleton.mp hc with h
    subst h
    simp
  | case3 a b =>
    rw [chunk3] at hc
    rcases List.mem_singleton.mp hc with h
    subst h
    simp
  | case4 a b c' rest ih =>
    rw [chunk3] at hc
    rcases List.mem_cons.mp hc with h | h
    · subst h
      simp
    · exact ih h

theorem chunk3_ne_nil (k : List Char) (rest : List (List Char)) :
    chunk3 (k :: rest) ≠ [] := by
  cases rest with
  | nil => simp [chunk3]
  | cons b t =>
    cases t with
    | nil => simp [chunk3]
    | cons c u => simp [chunk3]

theorem distributeGo_snd_indep (cv : String) (kws : List String) (cap : Nat)
    (rand rand' : Nat → Nat) :
    (distributeGo cv kws cap rand).2 = (distributeGo cv kws cap rand').2 := by
  simp only [distributeGo]
  set M := missingOf cv kws with hM
  by_cases hmiss : M.isEmpty = true
  · simp only [if_pos hmiss]
  · simp only [if_neg hmiss]
    rcases hsec : expSectionBounds cv.data with _ | ⟨a, b⟩
    · rfl
    · dsimp only
      set L := splitNl ((cv.data.drop a).take (b - a)) with hL
      set B := bulletIdxs L with hB
      by_cases hbl : B.isEmpty = true
      · simp only [if_pos hbl]
      · simp only [if_neg hbl]
        set per := (M.length + B.length - 1) / B.length with hper
        obtain ⟨e1, e2, e3⟩ := processBullets_indep cap per (M.map String.data)
          B rand rand' ⟨L, 0, 0, 0⟩ ⟨L, 0, 0, 0⟩ rfl rfl rfl
        rw [e1]
        by_cases hki : (processBullets rand' cap per (M.map String.data) B
            ⟨L, 0, 0, 0⟩).keywordIndex < M.length
        · simp only [if_pos hki]
          rw [e2]
        · simp only [if_neg hki]
          rw [e2]

theorem distribute_snd_indep (cv : String) (kws : List String) (cap : Nat)
    (rand rand' : Nat → Nat) :
    (distributeHighPriorityKeywords cv kws cap rand).2 =
      (distributeHighPriorityKeywords cv kws cap rand').2 := by
  unfold distributeHighPriorityKeywords
  split
  · rfl
  · exact distributeGo_snd_indep cv kws cap rand rand'

/-! ## Claim C1: the stats-sum invariant -/

/-- C1: for every distribution run with a non-empty résumé text and a
non-empty keyword list, the returned stats exist and satisfy
`alreadyPresent + added + missing = total`, on every completion path
(fully covered, no section found, no bullets found, and full injection
including overflow bullets). -/
theorem claim1_stats_sum (cv : String) (kws : List String) (cap : Nat)
    (rand : Nat → Nat) (h1 : cv ≠ "") (h2 : kws ≠ []) :
    ∃ s : DistStats,
      (distributeHighPriorityKeywords cv kws cap rand).2 = some s ∧
      s.alreadyPresent + s.added + s.missing = s.total := by
  have hpm : presentCnt cv kws + (missingOf cv kws).length = kws.length := by
    unfold presentCnt missingOf
    exact filter_partition_length _ _
  unfold distributeHighPriorityKeywords
  rw [if_neg (not_or.mpr ⟨h1, h2⟩)]
  simp only [distributeGo]
  set M := missingOf cv kws with hM
  by_cases hmiss : M.isEmpty = true
  · simp only [if_pos hmiss]
    have hlen : M.length = 0 := by rw [List.isEmpty_iff.mp hmiss]; rfl
    refine ⟨_, rfl, ?_⟩
    dsimp only
    omega
  · simp only [if_neg hmiss]
    rcases hsec : expSectionBounds cv.data with _ | ⟨a, b⟩
    · refine ⟨_, rfl, ?_⟩
      dsimp only
      omega
    · dsimp only
      set L := splitNl ((cv.data.drop a).take (b - a)) with hL
      set B := bulletIdxs L with hB
      by_cases hbl : B.isEmpty = true
      · simp only [if_pos hbl]
        refine ⟨_, rfl, ?_⟩
        dsimp only
        omega
      · simp only [if_neg hbl]
        set per := (M.length + B.length - 1) / B.length with hper
        obtain ⟨hki_le, hadd, _⟩ := processBullets_invariant rand cap per
          (M.map String.data) B ⟨L, 0, 0, 0⟩ (by simp)
        rw [List.length_map] at hki_le
        dsimp only at hadd
        by_cases hki : (processBullets rand cap per (M.map String.data) B
            ⟨L, 0, 0, 0⟩).keywordIndex < M.length
        · simp only [if_pos hki]
          refine ⟨_, rfl, ?_⟩
          dsimp only
          have hsum := sumLens_chunk3 ((M.map String.data).drop
            (processBullets rand cap per (M.map String.data) B
              ⟨L, 0, 0, 0⟩).keywordIndex)
          rw [List.length_drop, List.length_map] at hsum
          omega
        · simp only [if_neg hki]
          refine ⟨_, rfl, ?_⟩
          dsimp only
          omega

theorem claim1_stats_sum_witness :
    ∃ s : DistStats,
      (distributeHighPriorityKeywords "just a plain resume text with no headings"
        ["python"] 3 (fun _ => 0)).2 = some s ∧
      s.alreadyPresent + s.added + s.missing = s.total :=
  claim1_stats_sum "just a plain resume text with no headings" ["python"] 3
    (fun _ => 0) (by decide) (by decide)

/-! ## Claim C9: section-not-found and no-bullets fallbacks -/

/-- C9: when no experience heading matches, or a heading matches but the
section contains no bullet lines, distribution returns the input text
unchanged, `added = 0`, and `missing` equal to the number of keywords not
already whole-word present in the text; no exception is raised (the
function is total). -/
theorem claim9_section_fallback (cv : String) (kws : List String) (cap : Nat)
    (rand : Nat → Nat) (h1 : cv ≠ "") (h2 : kws ≠ [])
    (h3 : expSectionBounds cv.data = none ∨
      ∃ a b, expSectionBounds cv.data = some (a, b) ∧
        bulletIdxs (splitNl ((cv.data.drop a).take (b - a))) = []) :
    (distributeHighPriorityKeywords cv kws cap rand).1 = cv ∧
    (distributeHighPriorityKeywords cv kws cap rand).2 =
      some ⟨kws.length, presentCnt cv kws, 0, (missingOf cv kws).length⟩ := by
  unfold distributeHighPriorityKeywords
  rw [if_neg (not_or.mpr ⟨h1, h2⟩)]
  simp only [distributeGo]
  by_cases hmiss : (missingOf cv kws).isEmpty = true
  · simp only [if_pos hmiss]
    have hlen : (missingOf cv kws).length = 0 := by
      rw [List.isEmpty_iff.mp hmiss]
      rfl
    refine ⟨by trivial, ?_⟩
    dsimp only
    rw [hlen]
  · simp only [if_neg hmiss]
    rcases h3 with hsec | ⟨a, b, hsec, hbl⟩
    · rw [hsec]
      constructor <;> trivial
    · rw [hsec]
      dsimp only
      have hbl' : (bulletIdxs (splitNl ((cv.data.drop a).take (b - a)))).isEmpty
          = true := by
        rw [hbl]
        rfl
      simp only [if_pos hbl']
      constructor <;> trivial

theorem claim9_section_fallback_witness :
    (distributeHighPriorityKeywords "just a plain resume text with no headings"
        ["python"] 3 (fun _ => 0)).1 =
      "just a plain resume text with no headings" ∧
    (distributeHighPriorityKeywords "just a plain resume text with no headings"
        ["python"] 3 (fun _ => 0)).2 =
      some ⟨1, presentCnt "just a plain resume text with no headings" ["python"],
        0, (missingOf "just a plain resume text with no headings" ["python"]).length⟩ :=
  claim9_section_fallback "just a plain resume text with no headings" ["python"]
    3 (fun _ => 0) (by decide) (by decide) (Or.inl (by decide))

/-! ## Claim C4: even distribution across bullets -/

set_option maxRecDepth 100000 in
/-- C4: walking bullets in order, the loop takes exactly
`min(maxKeywordsPerBullet, perBullet, remainingMissing)` keywords per
bullet from the front of the missing queue, so after `b` bullets the
consumed index is `min(missingCount, b * min(cap, perBullet))`; in the
2-bullet / cap-3 / 5-missing scenario all 5 keywords are placed
(`added = 5, missing = 0`, for every random draw sequence) and no overflow
bullets are synthesized — the output text keeps exactly the original lines,
with bullet 1 receiving 3 keywords and bullet 2 the remaining 2. -/
theorem claim4_even_distribution :
    (∀ (rand : Nat → Nat) (cap per : Nat) (missing : List (List Char))
        (bl : List Nat) (st : BulletLoopState),
        st.keywordIndex ≤ missing.length →
        (processBullets rand cap per missing bl st).keywordIndex =
          min missing.length (st.keywordIndex + bl.length * min cap per)) ∧
    (∀ rand : Nat → Nat,
        (distributeHighPriorityKeywords
          "Name\nEXPERIENCE\n• Built apps.\n• Led teams.\nSKILLS\nStuff"
          ["python", "java", "reactjs", "golang", "kafka"] 3 rand).2 =
          some ⟨5, 0, 5, 0⟩) ∧
    (distributeHighPriorityKeywords
        "Name\nEXPERIENCE\n• Built apps.\n• Led teams.\nSKILLS\nStuff"
        ["python", "java", "reactjs", "golang", "kafka"] 3 (fun _ => 0)).1 =
      "Name\nEXPERIENCE\n• Built apps leveraging python, java, and reactjs.\n• Led teams leveraging golang and kafka.\nSKILLS\nStuff" := by
  refine ⟨?_, ?_, ?_⟩
  · intro rand cap per missing bl st h
    exact processBullets_ki rand cap per missing bl st h
  · intro rand
    rw [distribute_snd_indep
      "Name\nEXPERIENCE\n• Built apps.\n• Led teams.\nSKILLS\nStuff"
      ["python", "java", "reactjs", "golang", "kafka"] 3 rand (fun _ => 0)]
    decide
  · decide

theorem claim4_even_distribution_witness :
    (processBullets (fun _ => 0) 3 3
        [String.data "python", String.data "java", String.data "reactjs",
          String.data "golang", String.data "kafka"] [0, 1]
        ⟨[String.data "• a.", String.data "• b."], 0, 0, 0⟩).keywordIndex =
      min 5 (0 + 2 * min 3 3) :=
  claim4_even_distribution.1 (fun _ => 0) 3 3
    [String.data "python", String.data "java", String.data "reactjs",
      String.data "golang", String.data "kafka"] [0, 1]
    ⟨[String.data "• a.", String.data "• b."], 0, 0, 0⟩ (by decide)

/-! ## Claim C5: overflow bullets -/

set_option maxRecDepth 100000 in
/-- C5: keywords left over after every bullet is visited once are grouped
into chunks of at most 3 (one synthesized bullet per chunk, each chunk's
keywords counted into `stats.added`, and the chunk sizes sum to the
remainder); in the 2-bullet / cap-3 / 7-missing scenario the bullets
absorb 6 keywords and exactly one overflow bullet with the 1 remaining
keyword is inserted immediately after the second (= last, as
`min(4, bulletCount - 1)` selects the earlier of 5th and last) existing
bullet; stats report `added = 7, missing = 0` for every random draw
sequence. -/
theorem claim5_overflow_bullets :
    (∀ l : List (List Char), sumLens (chunk3 l) = l.length) ∧
    (∀ (l c : List (List Char)), c ∈ chunk3 l →
      1 ≤ c.length ∧ c.length ≤ 3) ∧
    (∀ rand : Nat → Nat,
        (distributeHighPriorityKeywords
          "Name\nEXPERIENCE\n• Built apps.\n• Led teams.\nSKILLS\nStuff"
          ["python", "java", "reactjs", "golang", "kafka", "scala", "terraform"]
          3 rand).2 = some ⟨7, 0, 7, 0⟩) ∧
    (distributeHighPriorityKeywords
        "Name\nEXPERIENCE\n• Built apps.\n• Led teams.\nSKILLS\nStuff"
        ["python", "java", "reactjs", "golang", "kafka", "scala", "terraform"]
        3 (fun _ => 0)).1 =
      "Name\nEXPERIENCE\n• Built apps leveraging python, java, and reactjs.\n• Led teams leveraging golang, kafka, and scala.\n• Implemented terraform solutions to enhance operational efficiency and delivery outcomes\nSKILLS\nStuff" := by
  refine ⟨sumLens_chunk3, ?_, ?_, ?_⟩
  · intro l c hc
    exact chunk3_mem_length l c hc
  · intro rand
    rw [distribute_snd_indep
      "Name\nEXPERIENCE\n• Built apps.\n• Led teams.\nSKILLS\nStuff"
      ["python", "java", "reactjs", "golang", "kafka", "scala", "terraform"]
      3 rand (fun _ => 0)]
    decide
  · decide

theorem claim5_overflow_bullets_witness :
    1 ≤ ([String.data "terraform"] : List (List Char)).length ∧
    ([String.data "terraform"] : List (List Char)).length ≤ 3 :=
  claim5_overflow_bullets.2.1 [String.data "terraform"]
    [String.data "terraform"] (by decide)

/-! ## Claim C10: absent/empty inputs of the distributor -/

/-- C10: on an empty résumé text or an empty keyword list, the distributor
returns the input text with an empty stats object carrying none of the
`total` / `alreadyPresent` / `added` / `missing` fields (modelled as
`none`, as opposed to `some` zero-valued stats), so the stats-sum
invariant is not established on this path. -/
theorem claim10_empty_stats (cv : String) (kws : List String) (cap : Nat)
    (rand : Nat → Nat) :
    distributeHighPriorityKeywords "" kws cap rand = ("", none) ∧
    distributeHighPriorityKeywords cv [] cap rand = (cv, none) ∧
    ∀ s : DistStats,
      (none : Option DistStats) ≠ some s := by
  refine ⟨?_, ?_, ?_⟩
  · simp [distributeHighPriorityKeywords]
  · simp [distributeHighPriorityKeywords]
  · intro s
    simp

end TurboPipeline
